import Mathlib

/-!
Verification development for the MakeItParquet repository.

Shallow embedding of the repository's pure logic:

* `src/path_manager.py` — `BasePathManager._replace_alias_in_string` and
  `DirectoryPathManager._generate_output_name` (the Alias Renamer);
* `src/conversion_manager.py` — `BaseConversionManager._start_conversion_process`
  (the conversion scheduler);
* `src/Make_It_Parquet/file_manager.py` — `DirectoryManager._group_files_by_extension`,
  `_detect_majority_extension` (the Majority Detector);
* `src/Make_It_Parquet/extension_mapping.py` — `ALLOWED_FILE_EXTENSIONS`;
* `src/Make_It_Parquet/file_information.py` — `file_extension` (pathlib suffix);
* `src/Make_It_Parquet/make_it_parquet.py` / `user_interface/settings.py` — `exit_program`.

Python strings are modelled as lists of ASCII code points (`List Nat`); Python's
`str.upper` / `str.lower` / `str.isupper` / `str.islower` / `str.capitalize` are
modelled by their ASCII behaviour, which is exact for the alias and file-name
material the program manipulates.
-/

/-! ### ASCII character model -/

/-- Python `str.lower` on one ASCII code point. -/
def toLowerN (c : Nat) : Nat := if 65 ≤ c ∧ c ≤ 90 then c + 32 else c

/-- Python `str.upper` on one ASCII code point. -/
def toUpperN (c : Nat) : Nat := if 97 ≤ c ∧ c ≤ 122 then c - 32 else c

/-- Is the code point an upper-case ASCII letter. -/
def isUpperN (c : Nat) : Bool := decide (65 ≤ c ∧ c ≤ 90)

/-- Is the code point a lower-case ASCII letter. -/
def isLowerN (c : Nat) : Bool := decide (97 ≤ c ∧ c ≤ 122)

/-- Is the code point a cased character (an ASCII letter). -/
def isCasedN (c : Nat) : Bool := isUpperN c || isLowerN c

/-- Python `str.lower` on a string. -/
def strLower (s : List Nat) : List Nat := s.map toLowerN

/-- Python `str.upper` on a string. -/
def strUpper (s : List Nat) : List Nat := s.map toUpperN

/-- Python `str.isupper`: at least one cased character and every cased
character upper-case. -/
def pyIsUpper (s : List Nat) : Bool :=
  s.any isCasedN && s.all (fun c => !isCasedN c || isUpperN c)

/-- Python `str.islower`: at least one cased character and every cased
character lower-case. -/
def pyIsLower (s : List Nat) : Bool :=
  s.any isCasedN && s.all (fun c => !isCasedN c || isLowerN c)

/-- Python `str.capitalize`: first character upper-cased, the rest lower-cased. -/
def pyCapitalize (s : List Nat) : List Nat :=
  match s with
  | [] => []
  | c :: cs => toUpperN c :: cs.map toLowerN

/-- The third casing bucket of `replacer` in
`BasePathManager._replace_alias_in_string`: `orig[0].isupper() and orig[1:].islower()`. -/
def capStyled (m : List Nat) : Bool :=
  match m with
  | [] => false
  | c :: cs => isUpperN c && pyIsLower cs

/-- The branch taken on a regex match by the inner `replacer` closure of
`BasePathManager._replace_alias_in_string` (src/path_manager.py lines 72-81):
render `new_alias` in the casing style of the matched substring `m`,
falling back to `new_alias` verbatim. -/
def replacer (new_alias m : List Nat) : List Nat :=
  if pyIsUpper m then strUpper new_alias
  else if pyIsLower m then strLower new_alias
  else if capStyled m then pyCapitalize new_alias
  else new_alias

/-- The matched casing is one of the three recognised buckets
(fully upper, fully lower, capitalized) — i.e. not the verbatim fallback. -/
def styled (m : List Nat) : Bool := pyIsUpper m || pyIsLower m || capStyled m

/-- An alias as the program uses them ("csv", "json", "parquet", ...):
a non-trivial all-lower-case ASCII-alphabetic word. -/
def isAlias (a : List Nat) : Bool := decide (2 ≤ a.length) && a.all isLowerN

/-! ### The case-insensitive literal scanner of `re.subn(re.escape(old), _, text, flags=IGNORECASE)` -/

/-- Does the literal pattern `old` match case-insensitively at the head of `l`
(the test `re` performs at each scan position)? -/
def matchAt (old l : List Nat) : Bool :=
  decide (old ≠ [] ∧ (l.take old.length).map toLowerN = old.map toLowerN)

/-- Fuel-indexed left-to-right non-overlapping scan of
`re.subn(re.escape(old_alias), replacer, text, flags=IGNORECASE)`:
returns the rewritten string and the number of replacements. -/
def subnFuel (old new : List Nat) : Nat → List Nat → List Nat × Nat
  | _, [] => ([], 0)
  | 0, l => (l, 0)
  | fuel + 1, c :: rest =>
    if matchAt old (c :: rest) then
      let r := subnFuel old new fuel (rest.drop (old.length - 1))
      (replacer new ((c :: rest).take old.length) ++ r.1, r.2 + 1)
    else
      let r := subnFuel old new fuel rest
      (c :: r.1, r.2)

/-- `re.subn` with enough fuel to scan the whole text. -/
def pySubn (old new text : List Nat) : List Nat × Nat :=
  subnFuel old new text.length text

/-- Python's substring test `p in s` for code-point lists. -/
def substr (p : List Nat) : List Nat → Bool
  | [] => decide (p = [])
  | c :: rest => decide ((c :: rest).take p.length = p) || substr p rest

/-- Fuel-indexed scan deciding that every case-insensitive occurrence of `A`
in the text falls in one of the three recognised casing buckets (fully upper,
fully lower, capitalized) — i.e. no occurrence takes the verbatim fallback of
`replacer`. -/
def matchesOKFuel (A : List Nat) : Nat → List Nat → Bool
  | _, [] => true
  | 0, _ => true
  | fuel + 1, c :: rest =>
    if matchAt A (c :: rest) then
      styled ((c :: rest).take A.length) && matchesOKFuel A fuel (rest.drop (A.length - 1))
    else matchesOKFuel A fuel rest

/-- `matchesOKFuel` with enough fuel. -/
def matchesOK (A text : List Nat) : Bool := matchesOKFuel A text.length text

/-- Fuel-indexed scan deciding the absence of accidental matches for a
round trip replacing `A` by `B` and back: every occurrence of `A` is in a
recognised casing bucket, and at every position where `A` does NOT match, the
rewritten remainder does not accidentally start a match of `B` (this rules out
pre-existing occurrences of `B` and matches straddling a replacement
boundary). -/
def revOKFuel (A B : List Nat) : Nat → List Nat → Bool
  | _, [] => true
  | 0, _ => true
  | fuel + 1, c :: rest =>
    if matchAt A (c :: rest) then
      styled ((c :: rest).take A.length) && revOKFuel A B fuel (rest.drop (A.length - 1))
    else
      !matchAt B (c :: (pySubn A B rest).1) && revOKFuel A B fuel rest

/-- `revOKFuel` with enough fuel. -/
def revOK (A B text : List Nat) : Bool := revOKFuel A B text.length text

/-- `BasePathManager._replace_alias_in_string` (src/path_manager.py lines 64-86):
case-preserving substitution of `old` by `new` in `text`; if no occurrence is
found the new alias is appended after a SPACE (the code's
`result = f-string of text, space, new_alias`). -/
def replace_alias_in_string (text old new : List Nat) : List Nat :=
  let r := pySubn old new text
  if r.2 = 0 then text ++ (32 :: new) else r.1

/-- `DirectoryPathManager._generate_output_name` (src/path_manager.py lines
142-154), as a function of the name, the inferred alias and the output
extension: if the alias occurs case-insensitively in the name, rewrite it with
`_replace_alias_in_string`; otherwise append an underscore and the output
extension. This is the repository's composite Alias Renamer. -/
def generate_output_name (input_name input_alias output_ext : List Nat) : List Nat :=
  if input_alias ≠ [] ∧ substr (strLower input_alias) (strLower input_name) = true then
    replace_alias_in_string input_name input_alias output_ext
  else input_name ++ (95 :: output_ext)

/-- Code-point list of an ASCII string literal, for readable concrete inputs. -/
def pystr (s : String) : List Nat := s.toList.map Char.toNat

/-! ### The conversion scheduler — `BaseConversionManager._start_conversion_process`
(src/conversion_manager.py lines 135-227)

A file of the inventory, with the outcome its import and export calls would
have (an exception raised by `import_file` / `export_file` is modelled by a
`false` flag). `fid` identifies the file. -/

structure FileRec where
  fid : Nat
  importFlag : Bool
  exportFlag : Bool
deriving DecidableEq

/-- Observable events of one run of `_start_conversion_process`: an import
attempt (logged success or logged failure) and an export attempt (logged
success or logged failure) for the file with the given id, plus a fatal-error
event that the method's code never emits. -/
inductive Event where
  | importDone (fid : Nat)
  | importError (fid : Nat)
  | exportDone (fid : Nat)
  | exportError (fid : Nat)
  | fatalAbort
deriving DecidableEq

/-- The import attempt event for a file. -/
def impEvent (f : FileRec) : Event :=
  if f.importFlag then Event.importDone f.fid else Event.importError f.fid

/-- The export attempt event for a file. -/
def expEvent (f : FileRec) : Event :=
  if f.exportFlag then Event.exportDone f.fid else Event.exportError f.fid

/-- The `bulk_import` mode: `while not import_queue.empty() and output_ext is None`.
`countdown` is the number of import attempts that will still be observed with
`output_ext is None` (the format resolves concurrently; the loop condition is
re-checked after each attempt). Returns the events, the export queue built up
(FIFO, failed imports skipped — their slot is never created), and the files
still in the import queue. -/
def bulkPhase : List FileRec → Nat → List Event × List FileRec × List FileRec
  | fs, 0 => ([], [], fs)
  | [], _ + 1 => ([], [], [])
  | f :: fs, n + 1 =>
    let r := bulkPhase fs n
    if f.importFlag then (impEvent f :: r.1, f :: r.2.1, r.2.2)
    else (impEvent f :: r.1, r.2.1, r.2.2)

/-- The `draining` mode: `while not export_queue.empty()` export each queued
item in FIFO order; an export error is logged and the loop continues
(the item is consumed either way). -/
def drainPhase : List FileRec → List Event
  | [] => []
  | f :: q => expEvent f :: drainPhase q

/-- The `balanced` mode: one import then, if the import succeeded, immediately
one export, per remaining file; failures are logged and the loop continues. -/
def balancedPhase : List FileRec → List Event
  | [] => []
  | f :: fs =>
    if f.importFlag then impEvent f :: expEvent f :: balancedPhase fs
    else impEvent f :: balancedPhase fs

/-- One run of `_start_conversion_process` over the inventory `files`
(already ordered), producing its event trace. `setAfter = some n` means
`output_ext` is observed set once `n` import attempts have completed
(`n = 0`: set before the loop starts); `none` means it is never set.
When the inner bulk loop exhausts the inventory with `output_ext` still
`None`, the code takes `if self.import_queue.empty(): break` and the run
ends with the export queue untouched. -/
def startConversionProcess (files : List FileRec) : Option Nat → List Event
  | none => (bulkPhase files files.length).1
  | some n =>
    if n ≤ files.length then
      let r := bulkPhase files n
      r.1 ++ drainPhase r.2.1 ++ balancedPhase r.2.2
    else (bulkPhase files files.length).1

/-- The ids of the import attempts of a trace, in order. -/
def importSeq : List Event → List Nat
  | [] => []
  | Event.importDone i :: evs => i :: importSeq evs
  | Event.importError i :: evs => i :: importSeq evs
  | _ :: evs => importSeq evs

/-- The ids of the export attempts of a trace, in order. -/
def exportSeq : List Event → List Nat
  | [] => []
  | Event.exportDone i :: evs => i :: exportSeq evs
  | Event.exportError i :: evs => i :: exportSeq evs
  | _ :: evs => exportSeq evs

/-- How many import attempts a trace holds for the file id `i`. -/
def countImports (i : Nat) (evs : List Event) : Nat := (importSeq evs).count i

/-- How many export attempts a trace holds for the file id `i`. -/
def countExports (i : Nat) (evs : List Event) : Nat := (exportSeq evs).count i

/-! ### The Majority Detector — `DirectoryManager` in
`src/Make_It_Parquet/file_manager.py` (lines 143-196) -/

/-- One step of `extension_counts[ext] += 1` on a `defaultdict(int)` rendered
as an insertion-ordered association list (Python dicts preserve insertion
order): an existing key is incremented in place, a new key is appended. -/
def bumpCount : List (List Nat × Nat) → List Nat → List (List Nat × Nat)
  | [], k => [(k, 1)]
  | (a, n) :: t, k => if a = k then (a, n + 1) :: t else (a, n) :: bumpCount t k

/-- `_group_files_by_extension`'s tally over the admitted extensions in
directory-scan order. -/
def extensionCounts (exts : List (List Nat)) : List (List Nat × Nat) :=
  exts.foldl bumpCount []

/-- `DirectoryManager._detect_majority_extension` together with
`_check_for_ambiguous_file_types` and `_set_input_extension_and_file_list`
(src/Make_It_Parquet/file_manager.py lines 166-196). The call to
`_sort_extensions_by_count` sits inside a comment on line 168, so the counts
are examined in scan (insertion) order: ambiguity is flagged iff the FIRST TWO
keys tie, and otherwise the FIRST key is selected. `none` models the
prompt-for-disambiguation path. -/
def detect_majority_extension (counts : List (List Nat × Nat)) : Option (List Nat) :=
  match counts with
  | c0 :: c1 :: _ => if c0.2 = c1.2 then none else some c0.1
  | [c0] => some c0.1
  | [] => none

/-- Modelled from the spec: the Majority Detector contract (spec section 4.1
and section 8) — return the format with the strictly highest count when a
unique maximum exists, signal ambiguity (`none`) iff two or more formats share
the maximum. Used to exhibit the divergence of the code above. -/
def specMajority (counts : List (List Nat × Nat)) : Option (List Nat) :=
  match counts with
  | [] => none
  | _ :: _ =>
    let mx := (counts.map Prod.snd).foldl Nat.max 0
    match counts.filter (fun p => p.2 = mx) with
    | [w] => some w.1
    | _ => none

/-! ### Exit codes — `MakeItParquet.exit_program`
(src/Make_It_Parquet/make_it_parquet.py lines 50-64) and
`Settings.exit_program` (src/Make_It_Parquet/user_interface/settings.py
lines 53-70) -/

/-- `exit_program(message, error_type)`: the message is logged at the level
selected by `error_type`, logging is stopped, and the process exits via
`exit(1)` on every branch. The returned value is the process exit code. -/
def exit_program (error_type : Option (List Nat)) : Nat :=
  if error_type = some (pystr "error") then 1
  else if error_type = some (pystr "exception") then 1
  else 1

/-- The exit code of a run that completes: `main` ends with
`mp.exit_program("Conversion complete.")`, whose `error_type` defaults to
`"error"` (src/Make_It_Parquet/make_it_parquet.py lines 67-75). -/
def completed_run_exit_code : Nat := exit_program (some (pystr "error"))

/-! ### Extension admission — `ALLOWED_FILE_EXTENSIONS`
(src/Make_It_Parquet/extension_mapping.py lines 6-7), `file_extension`
(src/Make_It_Parquet/file_information.py lines 56-58) and
`DirectoryManager._group_files_by_extension`
(src/Make_It_Parquet/file_manager.py lines 151-157) -/

/-- The literal set from extension_mapping.py: note ".csv", ".json",
".parquet", ".xlsx" carry a leading dot while "tsv" and "txt" do not. -/
def ALLOWED_FILE_EXTENSIONS : List (List Nat) :=
  [pystr ".csv", pystr "tsv", pystr "txt", pystr ".json", pystr ".parquet", pystr ".xlsx"]

/-- The membership test `ext in ALLOWED_FILE_EXTENSIONS` performed by
`_group_files_by_extension` on `file_info.file_extension`. -/
def isAllowedExt (s : List Nat) : Bool := decide (s ∈ ALLOWED_FILE_EXTENSIONS)

/-- The four extensions a real `pathlib` suffix can ever hit inside
`ALLOWED_FILE_EXTENSIONS`: the dotted lower-case ones. -/
def dottedAdmissible : List (List Nat) :=
  [pystr ".csv", pystr ".json", pystr ".parquet", pystr ".xlsx"]

/-- Index of the last '.' (code point 46) in a name, if any (Python
`str.rfind`). -/
def rfindDot : List Nat → Option Nat
  | [] => none
  | c :: rest =>
    match rfindDot rest with
    | some i => some (i + 1)
    | none => if c = 46 then some 0 else none

/-- `pathlib.PurePath.suffix` on a file name, as returned by
`file_information.file_extension`: the substring from the last dot, provided
that dot is neither the first nor the last character; empty otherwise. The
original case of the name is preserved. -/
def pySuffix (name : List Nat) : List Nat :=
  match rfindDot name with
  | none => []
  | some i => if 0 < i ∧ i < name.length - 1 then name.drop i else []

/-! ### Character-level lemmas -/

theorem toLowerN_toUpperN (c : Nat) : toLowerN (toUpperN c) = toLowerN c := by
  unfold toLowerN toUpperN
  split_ifs <;> omega

theorem toLowerN_toLowerN (c : Nat) : toLowerN (toLowerN c) = toLowerN c := by
  unfold toLowerN
  split_ifs <;> omega

theorem toLowerN_of_isLowerN {c : Nat} (h : isLowerN c = true) : toLowerN c = c := by
  simp [isLowerN] at h
  simp [toLowerN]
  omega

theorem strLower_strUpper (s : List Nat) : strLower (strUpper s) = strLower s := by
  simp [strLower, strUpper, List.map_map]
  exact fun c _ => toLowerN_toUpperN c

theorem strLower_strLower (s : List Nat) : strLower (strLower s) = strLower s := by
  simp [strLower, List.map_map]
  exact fun c _ => toLowerN_toLowerN c

theorem strLower_of_all_lower : {s : List Nat} → s.all isLowerN = true → strLower s = s
  | [], _ => rfl
  | c :: cs, h => by
    simp [List.all_cons] at h
    have ih := strLower_of_all_lower (s := cs) (by simp [List.all_eq_true]; exact h.2)
    simp [strLower] at ih ⊢
    exact ⟨toLowerN_of_isLowerN h.1, ih⟩

theorem strLower_pyCapitalize (s : List Nat) : strLower (pyCapitalize s) = strLower s := by
  cases s with
  | nil => rfl
  | cons c cs =>
    simp [pyCapitalize, strLower, List.map_map, toLowerN_toUpperN]
    exact fun x _ => toLowerN_toLowerN x

theorem length_strUpper (s : List Nat) : (strUpper s).length = s.length := by
  simp [strUpper]

theorem length_strLower (s : List Nat) : (strLower s).length = s.length := by
  simp [strLower]

theorem length_pyCapitalize (s : List Nat) : (pyCapitalize s).length = s.length := by
  cases s <;> simp [pyCapitalize]

theorem length_replacer (new m : List Nat) : (replacer new m).length = new.length := by
  unfold replacer
  split_ifs <;> simp [length_strUpper, length_strLower, length_pyCapitalize]

theorem strLower_replacer (new m : List Nat) :
    strLower (replacer new m) = strLower new := by
  unfold replacer
  split_ifs <;> simp [strLower_strUpper, strLower_strLower, strLower_pyCapitalize]

theorem char_upper_eq {x a : Nat} (h : toLowerN x = toLowerN a) (ha : isLowerN a = true)
    (hx : isCasedN x = true → isUpperN x = true) : x = toUpperN a := by
  simp [isLowerN] at ha
  simp [isCasedN, isUpperN, isLowerN] at hx
  simp [toLowerN] at h
  simp [toUpperN]
  have ha1 : ¬(65 ≤ a ∧ a ≤ 90) := by omega
  have ha2 : 97 ≤ a ∧ a ≤ 122 := ha
  rcases Decidable.em (65 ≤ x ∧ x ≤ 90) with hu | hu <;>
    rcases Decidable.em (97 ≤ x ∧ x ≤ 122) with hl | hl <;>
      simp [hu, hl, ha1, ha2] at h hx ⊢ <;> omega

theorem char_lower_eq {x a : Nat} (h : toLowerN x = toLowerN a) (ha : isLowerN a = true)
    (hx : isCasedN x = true → isLowerN x = true) : x = a := by
  simp [isLowerN] at ha
  simp [isCasedN, isUpperN, isLowerN] at hx
  simp [toLowerN] at h
  have ha1 : ¬(65 ≤ a ∧ a ≤ 90) := by omega
  rcases Decidable.em (65 ≤ x ∧ x ≤ 90) with hu | hu <;>
    rcases Decidable.em (97 ≤ x ∧ x ≤ 122) with hl | hl <;>
      simp [hu, hl, ha1] at h hx ⊢ <;> omega

theorem pyIsUpper_all {m : List Nat} (h : pyIsUpper m = true) :
    ∀ c ∈ m, isCasedN c = true → isUpperN c = true := by
  simp [pyIsUpper, List.all_eq_true] at h
  intro c hc hcase
  have := h.2 c hc
  simp [hcase] at this
  exact this

theorem pyIsLower_all {m : List Nat} (h : pyIsLower m = true) :
    ∀ c ∈ m, isCasedN c = true → isLowerN c = true := by
  simp [pyIsLower, List.all_eq_true] at h
  intro c hc hcase
  have := h.2 c hc
  simp [hcase] at this
  exact this

theorem recon_upper : {m A : List Nat} → strLower m = strLower A →
    A.all isLowerN = true → (∀ c ∈ m, isCasedN c = true → isUpperN c = true) →
    m = strUpper A
  | [], [], _, _, _ => rfl
  | [], _ :: _, h, _, _ => by simp [strLower] at h
  | _ :: _, [], h, _, _ => by simp [strLower] at h
  | x :: xs, a :: as, h, hA, hm => by
    simp [strLower] at h
    simp [List.all_cons] at hA
    have ih := recon_upper (m := xs) (A := as) (by simpa [strLower] using h.2) (by simp [List.all_eq_true]; exact hA.2)
      (fun c hc hcase => hm c (List.mem_cons_of_mem _ hc) hcase)
    simp [strUpper] at ih ⊢
    exact ⟨char_upper_eq h.1 hA.1 (hm x (List.mem_cons_self _ _)), ih⟩

theorem recon_lower : {m A : List Nat} → strLower m = strLower A →
    A.all isLowerN = true → (∀ c ∈ m, isCasedN c = true → isLowerN c = true) →
    m = A
  | [], [], _, _, _ => rfl
  | [], _ :: _, h, _, _ => by simp [strLower] at h
  | _ :: _, [], h, _, _ => by simp [strLower] at h
  | x :: xs, a :: as, h, hA, hm => by
    simp [strLower] at h
    simp [List.all_cons] at hA
    have ih := recon_lower (m := xs) (A := as) (by simpa [strLower] using h.2) (by simp [List.all_eq_true]; exact hA.2)
      (fun c hc hcase => hm c (List.mem_cons_of_mem _ hc) hcase)
    exact List.cons_eq_cons.mpr ⟨char_lower_eq h.1 hA.1 (hm x (List.mem_cons_self _ _)), ih⟩

theorem recon_cap : {m A : List Nat} → strLower m = strLower A →
    A.all isLowerN = true → capStyled m = true → m = pyCapitalize A
  | [], _, _, _, hc => by simp [capStyled] at hc
  | _ :: _, [], h, _, _ => by simp [strLower] at h
  | x :: xs, a :: as, h, hA, hc => by
    simp [strLower] at h
    simp [List.all_cons] at hA
    simp [capStyled] at hc
    have hxs : xs = as :=
      recon_lower (by simpa [strLower] using h.2) (by simp [List.all_eq_true]; exact hA.2)
        (pyIsLower_all hc.2)
    have hx : x = toUpperN a := char_upper_eq h.1 hA.1 (fun _ => hc.1)
    have has : List.map toLowerN as = as :=
      strLower_of_all_lower (s := as) (by simp [List.all_eq_true]; exact hA.2)
    simp [pyCapitalize, has]
    exact ⟨hx, hxs⟩

theorem isAlias_all_lower {B : List Nat} (hB : isAlias B = true) :
    B.all isLowerN = true := by
  simp [isAlias] at hB
  simp [List.all_eq_true]
  exact hB.2

theorem isAlias_two_le {B : List Nat} (hB : isAlias B = true) : 2 ≤ B.length := by
  simp [isAlias] at hB
  exact hB.1

theorem isAlias_ne_nil {B : List Nat} (hB : isAlias B = true) : B ≠ [] := by
  have := isAlias_two_le hB
  cases B with
  | nil => simp at this
  | cons _ _ => simp

theorem strLower_alias {B : List Nat} (hB : isAlias B = true) : strLower B = B :=
  strLower_of_all_lower (isAlias_all_lower hB)

theorem isCasedN_of_isLowerN {c : Nat} (h : isLowerN c = true) : isCasedN c = true := by
  simp [isCasedN, h]

theorem not_isUpperN_of_isLowerN {c : Nat} (h : isLowerN c = true) : isUpperN c = false := by
  simp [isLowerN] at h
  simp [isUpperN]
  omega

theorem isUpperN_toUpperN {c : Nat} (h : isLowerN c = true) : isUpperN (toUpperN c) = true := by
  simp [isLowerN] at h
  simp [isUpperN, toUpperN, h.1, h.2]
  omega

theorem not_isLowerN_toUpperN {c : Nat} (h : isLowerN c = true) :
    isLowerN (toUpperN c) = false := by
  simp [isLowerN] at h
  simp [isLowerN, toUpperN, h.1, h.2]
  omega

theorem isCasedN_toUpperN {c : Nat} (h : isLowerN c = true) :
    isCasedN (toUpperN c) = true := by
  simp [isCasedN, isUpperN_toUpperN h]

theorem classifyUpper {B : List Nat} (hB : isAlias B = true) :
    pyIsUpper (strUpper B) = true := by
  have hlow := isAlias_all_lower hB
  rw [pyIsUpper, Bool.and_eq_true]
  constructor
  · rw [List.any_eq_true]
    obtain ⟨b, bs, rfl⟩ := List.exists_cons_of_ne_nil (isAlias_ne_nil hB)
    have hb : isLowerN b = true := List.all_eq_true.mp hlow b (by simp)
    exact ⟨toUpperN b, by simp [strUpper], isCasedN_toUpperN hb⟩
  · rw [List.all_eq_true]
    intro c hc
    rw [strUpper, List.mem_map] at hc
    obtain ⟨x, hx, rfl⟩ := hc
    have hxl : isLowerN x = true := List.all_eq_true.mp hlow x hx
    simp [isCasedN_toUpperN hxl, isUpperN_toUpperN hxl]

theorem pyIsUpper_of_all_lower {s : List Nat} (h : s.all isLowerN = true) :
    pyIsUpper s = false := by
  cases s with
  | nil => rfl
  | cons b bs =>
    have hb : isLowerN b = true := List.all_eq_true.mp h b (by simp)
    simp [pyIsUpper, isCasedN_of_isLowerN hb, not_isUpperN_of_isLowerN hb]

theorem pyIsLower_of_all_lower {s : List Nat} (h : s.all isLowerN = true)
    (hne : s ≠ []) : pyIsLower s = true := by
  obtain ⟨b, bs, rfl⟩ := List.exists_cons_of_ne_nil hne
  have hb : isLowerN b = true := List.all_eq_true.mp h b (by simp)
  rw [pyIsLower, Bool.and_eq_true]
  constructor
  · rw [List.any_eq_true]
    exact ⟨b, by simp, isCasedN_of_isLowerN hb⟩
  · rw [List.all_eq_true]
    intro c hc
    have hcl : isLowerN c = true := List.all_eq_true.mp h c hc
    simp [hcl]

theorem classifyCapU {B : List Nat} (hB : isAlias B = true) :
    pyIsUpper (pyCapitalize B) = false := by
  have hlow := isAlias_all_lower hB
  have h2 := isAlias_two_le hB
  match B, h2 with
  | b :: b1 :: bs, _ =>
    have hb1 : isLowerN b1 = true := List.all_eq_true.mp hlow b1 (by simp)
    have : toLowerN b1 = b1 := toLowerN_of_isLowerN hb1
    simp [pyCapitalize, pyIsUpper, this, isCasedN_of_isLowerN hb1,
      not_isUpperN_of_isLowerN hb1]

theorem classifyCapL {B : List Nat} (hB : isAlias B = true) :
    pyIsLower (pyCapitalize B) = false := by
  have hlow := isAlias_all_lower hB
  obtain ⟨b, bs, rfl⟩ := List.exists_cons_of_ne_nil (isAlias_ne_nil hB)
  have hb : isLowerN b = true := List.all_eq_true.mp hlow b (by simp)
  simp [pyCapitalize, pyIsLower, isCasedN_toUpperN hb, not_isLowerN_toUpperN hb]

theorem classifyCapC {B : List Nat} (hB : isAlias B = true) :
    capStyled (pyCapitalize B) = true := by
  have hlow := isAlias_all_lower hB
  have h2 := isAlias_two_le hB
  match B, h2 with
  | b :: b1 :: bs, _ =>
    have hb : isLowerN b = true := List.all_eq_true.mp hlow b (by simp)
    have htail : (b1 :: bs).all isLowerN = true := by
      rw [List.all_eq_true]
      intro c hc
      exact List.all_eq_true.mp hlow c (by simp [hc])
    have hmap : List.map toLowerN (b1 :: bs) = b1 :: bs :=
      strLower_of_all_lower (s := b1 :: bs) htail
    rw [pyCapitalize]
    rw [capStyled.eq_def]
    simp only [hmap]
    simp [isUpperN_toUpperN hb, pyIsLower_of_all_lower htail (by simp)]

theorem replacer_replacer {A B m : List Nat} (hA : isAlias A = true)
    (hB : isAlias B = true) (hm : strLower m = strLower A) (hst : styled m = true) :
    replacer A (replacer B m) = m := by
  have hAlow := isAlias_all_lower hA
  by_cases h1 : pyIsUpper m = true
  · have step1 : replacer B m = strUpper B := by rw [replacer, if_pos h1]
    have step2 : replacer A (strUpper B) = strUpper A := by
      rw [replacer, if_pos (classifyUpper hB)]
    rw [step1, step2]
    exact (recon_upper hm hAlow (pyIsUpper_all h1)).symm
  · by_cases hl : pyIsLower m = true
    · have step1 : replacer B m = strLower B := by
        rw [replacer, if_neg (by simp [h1]), if_pos hl]
      have step2 : replacer A (strLower B) = strLower A := by
        rw [strLower_alias hB, replacer,
          if_neg (by simp [pyIsUpper_of_all_lower (isAlias_all_lower hB)]),
          if_pos (pyIsLower_of_all_lower (isAlias_all_lower hB) (isAlias_ne_nil hB))]
      rw [step1, step2, strLower_alias hA]
      exact (recon_lower hm hAlow (pyIsLower_all hl)).symm
    · have hc : capStyled m = true := by
        simp [styled, h1, hl] at hst
        exact hst
      have step1 : replacer B m = pyCapitalize B := by
        rw [replacer, if_neg (by simp [h1]), if_neg (by simp [hl]), if_pos hc]
      have step2 : replacer A (pyCapitalize B) = pyCapitalize A := by
        rw [replacer, if_neg (by simp [classifyCapU hB]),
          if_neg (by simp [classifyCapL hB]), if_pos (classifyCapC hB)]
      rw [step1, step2]
      exact (recon_cap hm hAlow hc).symm

/-! ### Scanner plumbing -/

theorem subnFuel_irrel (old new : List Nat) :
    ∀ f1 f2 l, l.length ≤ f1 → l.length ≤ f2 →
      subnFuel old new f1 l = subnFuel old new f2 l := by
  intro f1
  induction f1 with
  | zero =>
    intro f2 l h1 _
    have hl : l = [] := List.length_eq_zero.mp (Nat.le_zero.mp h1)
    subst hl
    simp [subnFuel]
  | succ f ih =>
    intro f2 l h1 h2
    cases l with
    | nil => simp [subnFuel]
    | cons c rest =>
      cases f2 with
      | zero => simp at h2
      | succ g =>
        simp only [subnFuel]
        simp at h1 h2
        by_cases hm : matchAt old (c :: rest) = true
        · rw [if_pos hm, if_pos hm]
          have hd1 : (rest.drop (old.length - 1)).length ≤ f := by
            simp [List.length_drop]; omega
          have hd2 : (rest.drop (old.length - 1)).length ≤ g := by
            simp [List.length_drop]; omega
          rw [ih g _ hd1 hd2]
        · rw [if_neg hm, if_neg hm]
          rw [ih g rest (by omega) (by omega)]

theorem matchAt_length {old l : List Nat} (h : matchAt old l = true) :
    old.length ≤ l.length := by
  simp [matchAt] at h
  have := congrArg List.length h.2
  simp at this
  omega

theorem matchAt_ne_nil {old l : List Nat} (h : matchAt old l = true) : old ≠ [] := by
  simp [matchAt] at h
  exact h.1

theorem drop_len_cons {old : List Nat} (hold : old ≠ []) (c : Nat) (rest : List Nat) :
    (c :: rest).drop old.length = rest.drop (old.length - 1) := by
  obtain ⟨k, hk⟩ : ∃ k, old.length = k + 1 := by
    cases old with
    | nil => exact absurd rfl hold
    | cons _ t => exact ⟨t.length, rfl⟩
  rw [hk]
  simp

theorem pySubn_cons_match {old new : List Nat} {c : Nat} {rest : List Nat}
    (h : matchAt old (c :: rest) = true) :
    pySubn old new (c :: rest) =
      (replacer new ((c :: rest).take old.length)
          ++ (pySubn old new (rest.drop (old.length - 1))).1,
       (pySubn old new (rest.drop (old.length - 1))).2 + 1) := by
  show subnFuel old new (c :: rest).length (c :: rest) = _
  rw [show (c :: rest).length = rest.length + 1 from rfl]
  rw [subnFuel, if_pos h]
  rw [subnFuel_irrel old new rest.length (rest.drop (old.length - 1)).length
        (rest.drop (old.length - 1)) (by simp [List.length_drop]) (le_refl _)]
  rfl

theorem pySubn_cons_nomatch {old new : List Nat} {c : Nat} {rest : List Nat}
    (h : matchAt old (c :: rest) = false) :
    pySubn old new (c :: rest) =
      (c :: (pySubn old new rest).1, (pySubn old new rest).2) := by
  show subnFuel old new (c :: rest).length (c :: rest) = _
  rw [show (c :: rest).length = rest.length + 1 from rfl]
  rw [subnFuel, if_neg (by simp [h])]
  rfl

theorem substr_cons {p l : List Nat} (c : Nat) (h : substr p l = true) :
    substr p (c :: l) = true := by
  rw [substr]
  simp [h]

theorem substr_prefix (p y : List Nat) : substr p (p ++ y) = true := by
  cases p with
  | nil =>
    cases y with
    | nil => simp [substr]
    | cons c rest => simp [substr]
  | cons a p' =>
    rw [List.cons_append, substr]
    have ht : ((a :: p') ++ y).take (a :: p').length = a :: p' := by
      rw [List.take_left]
    rw [List.cons_append] at ht
    simp [ht]

theorem substr_head_matchAt {old : List Nat} {c : Nat} {rest : List Nat}
    (hold : old ≠ [])
    (h : decide ((toLowerN c :: strLower rest).take (strLower old).length = strLower old)
      = true) :
    matchAt old (c :: rest) = true := by
  have h' := of_decide_eq_true h
  have hlen : (strLower old).length = old.length := by simp [strLower]
  rw [hlen] at h'
  simp [matchAt, hold]
  simpa [strLower] using h'

theorem count_pos_of_substr (old new : List Nat) (hold : old ≠ []) :
    ∀ n l, l.length ≤ n → substr (strLower old) (strLower l) = true →
      1 ≤ (pySubn old new l).2 := by
  intro n
  induction n with
  | zero =>
    intro l h1 h2
    have hl : l = [] := List.length_eq_zero.mp (Nat.le_zero.mp h1)
    subst hl
    simp [substr, strLower] at h2
    exact absurd h2 hold
  | succ f ih =>
    intro l h1 h2
    cases l with
    | nil =>
      simp [substr, strLower] at h2
      exact absurd h2 hold
    | cons c rest =>
      by_cases hm : matchAt old (c :: rest) = true
      · rw [pySubn_cons_match hm]
        simp
      · rw [pySubn_cons_nomatch (Bool.eq_false_iff.mpr hm)]
        apply ih rest (by simp at h1; omega)
        have h2' : substr (strLower old) (toLowerN c :: strLower rest) = true := by
          simpa [strLower] using h2
        rw [substr] at h2'
        rcases Bool.or_eq_true_iff.mp h2' with hfirst | hrest
        · exact absurd (substr_head_matchAt hold hfirst) hm
        · exact hrest

theorem matchesOKFuel_irrel (A : List Nat) :
    ∀ f1 f2 l, l.length ≤ f1 → l.length ≤ f2 →
      matchesOKFuel A f1 l = matchesOKFuel A f2 l := by
  intro f1
  induction f1 with
  | zero =>
    intro f2 l h1 _
    have hl : l = [] := List.length_eq_zero.mp (Nat.le_zero.mp h1)
    subst hl
    simp [matchesOKFuel]
  | succ f ih =>
    intro f2 l h1 h2
    cases l with
    | nil => simp [matchesOKFuel]
    | cons c rest =>
      cases f2 with
      | zero => simp at h2
      | succ g =>
        simp only [matchesOKFuel]
        simp at h1 h2
        by_cases hm : matchAt A (c :: rest) = true
        · rw [if_pos hm, if_pos hm]
          have hd1 : (rest.drop (A.length - 1)).length ≤ f := by
            simp [List.length_drop]; omega
          have hd2 : (rest.drop (A.length - 1)).length ≤ g := by
            simp [List.length_drop]; omega
          rw [ih g _ hd1 hd2]
        · rw [if_neg hm, if_neg hm]
          rw [ih g rest (by omega) (by omega)]

theorem matchesOK_cons_match {A : List Nat} {c : Nat} {rest : List Nat}
    (h : matchAt A (c :: rest) = true) :
    matchesOK A (c :: rest) =
      (styled ((c :: rest).take A.length) && matchesOK A (rest.drop (A.length - 1))) := by
  show matchesOKFuel A (c :: rest).length (c :: rest) = _
  rw [show (c :: rest).length = rest.length + 1 from rfl]
  rw [matchesOKFuel, if_pos h]
  rw [matchesOKFuel_irrel A rest.length (rest.drop (A.length - 1)).length
        (rest.drop (A.length - 1)) (by simp [List.length_drop]) (le_refl _)]
  rfl

theorem matchesOK_cons_nomatch {A : List Nat} {c : Nat} {rest : List Nat}
    (h : matchAt A (c :: rest) = false) :
    matchesOK A (c :: rest) = matchesOK A rest := by
  show matchesOKFuel A (c :: rest).length (c :: rest) = _
  rw [show (c :: rest).length = rest.length + 1 from rfl]
  rw [matchesOKFuel, if_neg (by simp [h])]
  rfl

theorem revOKFuel_irrel (A B : List Nat) :
    ∀ f1 f2 l, l.length ≤ f1 → l.length ≤ f2 →
      revOKFuel A B f1 l = revOKFuel A B f2 l := by
  intro f1
  induction f1 with
  | zero =>
    intro f2 l h1 _
    have hl : l = [] := List.length_eq_zero.mp (Nat.le_zero.mp h1)
    subst hl
    simp [revOKFuel]
  | succ f ih =>
    intro f2 l h1 h2
    cases l with
    | nil => simp [revOKFuel]
    | cons c rest =>
      cases f2 with
      | zero => simp at h2
      | succ g =>
        simp only [revOKFuel]
        simp at h1 h2
        by_cases hm : matchAt A (c :: rest) = true
        · rw [if_pos hm, if_pos hm]
          have hd1 : (rest.drop (A.length - 1)).length ≤ f := by
            simp [List.length_drop]; omega
          have hd2 : (rest.drop (A.length - 1)).length ≤ g := by
            simp [List.length_drop]; omega
          rw [ih g _ hd1 hd2]
        · rw [if_neg hm, if_neg hm]
          rw [ih g rest (by omega) (by omega)]

theorem revOK_cons_match {A B : List Nat} {c : Nat} {rest : List Nat}
    (h : matchAt A (c :: rest) = true) :
    revOK A B (c :: rest) =
      (styled ((c :: rest).take A.length) && revOK A B (rest.drop (A.length - 1))) := by
  show revOKFuel A B (c :: rest).length (c :: rest) = _
  rw [show (c :: rest).length = rest.length + 1 from rfl]
  rw [revOKFuel, if_pos h]
  rw [revOKFuel_irrel A B rest.length (rest.drop (A.length - 1)).length
        (rest.drop (A.length - 1)) (by simp [List.length_drop]) (le_refl _)]
  rfl

theorem revOK_cons_nomatch {A B : List Nat} {c : Nat} {rest : List Nat}
    (h : matchAt A (c :: rest) = false) :
    revOK A B (c :: rest) =
      (!matchAt B (c :: (pySubn A B rest).1) && revOK A B rest) := by
  show revOKFuel A B (c :: rest).length (c :: rest) = _
  rw [show (c :: rest).length = rest.length + 1 from rfl]
  rw [revOKFuel, if_neg (by simp [h])]
  rfl

/-! ### Core properties of the case-preserving substitution -/

theorem replacer_self {A m : List Nat} (hA : isAlias A = true)
    (hm : strLower m = strLower A) (hst : styled m = true) : replacer A m = m := by
  have hAlow := isAlias_all_lower hA
  by_cases h1 : pyIsUpper m = true
  · rw [replacer, if_pos h1]
    exact (recon_upper hm hAlow (pyIsUpper_all h1)).symm
  · by_cases hl : pyIsLower m = true
    · rw [replacer, if_neg (by simp [h1]), if_pos hl]
      rw [strLower_alias hA]
      exact (recon_lower hm hAlow (pyIsLower_all hl)).symm
    · have hc : capStyled m = true := by
        simp [styled, h1, hl] at hst
        exact hst
      rw [replacer, if_neg (by simp [h1]), if_neg (by simp [hl]), if_pos hc]
      exact (recon_cap hm hAlow hc).symm

theorem matchAt_strLower {A : List Nat} {c : Nat} {rest : List Nat}
    (hm : matchAt A (c :: rest) = true) :
    strLower ((c :: rest).take A.length) = strLower A := by
  simp [matchAt] at hm
  simpa [strLower] using hm.2

theorem subn_id_core {A : List Nat} (hA : isAlias A = true) :
    ∀ n text, text.length ≤ n → matchesOK A text = true →
      (pySubn A A text).1 = text := by
  intro n
  induction n with
  | zero =>
    intro text h1 _
    have hl : text = [] := List.length_eq_zero.mp (Nat.le_zero.mp h1)
    subst hl
    rfl
  | succ f ih =>
    intro text h1 hok
    cases text with
    | nil => rfl
    | cons c rest =>
      by_cases hm : matchAt A (c :: rest) = true
      · rw [pySubn_cons_match hm]
        rw [matchesOK_cons_match hm, Bool.and_eq_true] at hok
        obtain ⟨hst, hok'⟩ := hok
        have hold : A ≠ [] := matchAt_ne_nil hm
        have ihlen : (rest.drop (A.length - 1)).length ≤ f := by
          simp [List.length_drop]
          simp at h1
          omega
        rw [ih _ ihlen hok']
        rw [replacer_self hA (matchAt_strLower hm) hst]
        rw [← drop_len_cons hold c rest]
        exact List.take_append_drop _ _
      · have hm' : matchAt A (c :: rest) = false := Bool.eq_false_iff.mpr hm
        rw [pySubn_cons_nomatch hm']
        rw [matchesOK_cons_nomatch hm'] at hok
        simp only []
        rw [ih rest (by simp at h1; omega) hok]

theorem subn_roundtrip_core {A B : List Nat} (hA : isAlias A = true)
    (hB : isAlias B = true) :
    ∀ n text, text.length ≤ n → revOK A B text = true →
      (pySubn B A (pySubn A B text).1).1 = text
      ∧ (1 ≤ (pySubn A B text).2 → 1 ≤ (pySubn B A (pySubn A B text).1).2)
      ∧ (1 ≤ (pySubn A B text).2 →
          substr (strLower B) (strLower (pySubn A B text).1) = true) := by
  intro n
  induction n with
  | zero =>
    intro text h1 _
    have hl : text = [] := List.length_eq_zero.mp (Nat.le_zero.mp h1)
    subst hl
    refine ⟨rfl, ?_, ?_⟩ <;> intro h <;> simp [pySubn, subnFuel] at h
  | succ f ih =>
    intro text h1 hok
    cases text with
    | nil =>
      refine ⟨rfl, ?_, ?_⟩ <;> intro h <;> simp [pySubn, subnFuel] at h
    | cons c rest =>
      by_cases hm : matchAt A (c :: rest) = true
      · -- a match of A at the head: it is replaced by `replacer B m`
        rw [pySubn_cons_match hm]
        rw [revOK_cons_match hm, Bool.and_eq_true] at hok
        obtain ⟨hst, hok'⟩ := hok
        have hold : A ≠ [] := matchAt_ne_nil hm
        have hmA := matchAt_strLower hm
        have ihlen : (rest.drop (A.length - 1)).length ≤ f := by
          simp [List.length_drop]
          simp at h1
          omega
        obtain ⟨ihEq, ihCnt, ihSub⟩ := ih _ ihlen hok'
        have hBne : B ≠ [] := isAlias_ne_nil hB
        have hrlen : (replacer B ((c :: rest).take A.length)).length = B.length :=
          length_replacer B _
        have hrlow : strLower (replacer B ((c :: rest).take A.length)) = strLower B :=
          strLower_replacer B _
        have hrne : replacer B ((c :: rest).take A.length) ≠ [] := by
          intro hcon
          rw [hcon] at hrlen
          exact hBne (List.length_eq_zero.mp hrlen.symm)
        obtain ⟨r0, rtl, hr⟩ :=
          List.exists_cons_of_ne_nil hrne
        have htake : ((replacer B ((c :: rest).take A.length))
            ++ (pySubn A B (rest.drop (A.length - 1))).1).take B.length
            = replacer B ((c :: rest).take A.length) := by
          rw [← hrlen]
          exact List.take_left _ _
        have hdrop : ((replacer B ((c :: rest).take A.length))
            ++ (pySubn A B (rest.drop (A.length - 1))).1).drop B.length
            = (pySubn A B (rest.drop (A.length - 1))).1 := by
          rw [← hrlen]
          exact List.drop_left _ _
        have hmB : matchAt B ((replacer B ((c :: rest).take A.length))
            ++ (pySubn A B (rest.drop (A.length - 1))).1) = true := by
          simp only [matchAt, decide_eq_true_eq]
          refine ⟨hBne, ?_⟩
          rw [htake]
          have := hrlow
          simpa [strLower] using this
        rw [hr] at hmB htake hdrop ⊢
        rw [List.cons_append] at hmB htake hdrop ⊢
        rw [pySubn_cons_match hmB]
        have hdrop' : (rtl ++ (pySubn A B (rest.drop (A.length - 1))).1).drop (B.length - 1)
            = (pySubn A B (rest.drop (A.length - 1))).1 := by
          rw [← drop_len_cons hBne r0 _]
          exact hdrop
        refine ⟨?_, ?_, ?_⟩
        · rw [hdrop', htake, ihEq]
          have : replacer A (r0 :: rtl) = (c :: rest).take A.length := by
            rw [← hr]
            exact replacer_replacer hA hB hmA hst
          rw [this]
          rw [← drop_len_cons hold c rest]
          exact List.take_append_drop _ _
        · intro _
          simp
        · intro _
          rw [← List.cons_append, ← hr]
          have : strLower ((replacer B ((c :: rest).take A.length))
              ++ (pySubn A B (rest.drop (A.length - 1))).1)
              = strLower B ++ strLower (pySubn A B (rest.drop (A.length - 1))).1 := by
            simp [strLower, hrlow]
            have := hrlow
            simpa [strLower] using this
          rw [this]
          exact substr_prefix _ _
      · have hm' : matchAt A (c :: rest) = false := Bool.eq_false_iff.mpr hm
        rw [pySubn_cons_nomatch hm']
        rw [revOK_cons_nomatch hm', Bool.and_eq_true] at hok
        obtain ⟨hnB, hok'⟩ := hok
        have hnB' : matchAt B (c :: (pySubn A B rest).1) = false := by
          simpa using hnB
        obtain ⟨ihEq, ihCnt, ihSub⟩ := ih rest (by simp at h1; omega) hok'
        rw [pySubn_cons_nomatch hnB']
        refine ⟨?_, ?_, ?_⟩
        · simp only []
          rw [ihEq]
        · intro h
          exact ihCnt h
        · intro h
          have := ihSub h
          have hcons : strLower (c :: (pySubn A B rest).1)
              = toLowerN c :: strLower (pySubn A B rest).1 := by
            simp [strLower]
          rw [hcons]
          exact substr_cons _ this

/-! ### Scheduler trace lemmas -/

theorem bulkPhase_events : ∀ (fs : List FileRec) (n : Nat),
    (bulkPhase fs n).1 = (fs.take n).map impEvent
  | _, 0 => by simp [bulkPhase]
  | [], _ + 1 => by simp [bulkPhase]
  | f :: fs, n + 1 => by
    by_cases h : f.importFlag = true <;>
      simp [bulkPhase, h, bulkPhase_events fs n]

theorem bulkPhase_queue : ∀ (fs : List FileRec) (n : Nat),
    (bulkPhase fs n).2.1 = (fs.take n).filter (fun f => f.importFlag)
  | _, 0 => by simp [bulkPhase]
  | [], _ + 1 => by simp [bulkPhase]
  | f :: fs, n + 1 => by
    by_cases h : f.importFlag = true <;>
      simp [bulkPhase, h, bulkPhase_queue fs n, List.filter_cons]

theorem bulkPhase_rem : ∀ (fs : List FileRec) (n : Nat),
    (bulkPhase fs n).2.2 = fs.drop n
  | _, 0 => by simp [bulkPhase]
  | [], _ + 1 => by simp [bulkPhase]
  | f :: fs, n + 1 => by
    by_cases h : f.importFlag = true <;>
      simp [bulkPhase, h, bulkPhase_rem fs n]

theorem importSeq_append : ∀ (l1 l2 : List Event),
    importSeq (l1 ++ l2) = importSeq l1 ++ importSeq l2
  | [], _ => rfl
  | e :: l1, l2 => by
    cases e <;> simp [importSeq, importSeq_append l1 l2]

theorem exportSeq_append : ∀ (l1 l2 : List Event),
    exportSeq (l1 ++ l2) = exportSeq l1 ++ exportSeq l2
  | [], _ => rfl
  | e :: l1, l2 => by
    cases e <;> simp [exportSeq, exportSeq_append l1 l2]

theorem importSeq_map_impEvent : ∀ (fs : List FileRec),
    importSeq (fs.map impEvent) = fs.map FileRec.fid
  | [] => rfl
  | f :: fs => by
    by_cases h : f.importFlag = true <;>
      simp [impEvent, h, importSeq, importSeq_map_impEvent fs]

theorem exportSeq_map_impEvent : ∀ (fs : List FileRec),
    exportSeq (fs.map impEvent) = []
  | [] => rfl
  | f :: fs => by
    by_cases h : f.importFlag = true <;>
      simp [impEvent, h, exportSeq, exportSeq_map_impEvent fs]

theorem importSeq_drainPhase : ∀ (q : List FileRec),
    importSeq (drainPhase q) = []
  | [] => rfl
  | f :: q => by
    by_cases h : f.exportFlag = true <;>
      simp [drainPhase, expEvent, h, importSeq, importSeq_drainPhase q]

theorem exportSeq_drainPhase : ∀ (q : List FileRec),
    exportSeq (drainPhase q) = q.map FileRec.fid
  | [] => rfl
  | f :: q => by
    by_cases h : f.exportFlag = true <;>
      simp [drainPhase, expEvent, h, exportSeq, exportSeq_drainPhase q]

theorem importSeq_balancedPhase : ∀ (fs : List FileRec),
    importSeq (balancedPhase fs) = fs.map FileRec.fid
  | [] => rfl
  | f :: fs => by
    by_cases hi : f.importFlag = true <;> by_cases he : f.exportFlag = true <;>
      simp [balancedPhase, impEvent, expEvent, hi, he, importSeq, importSeq_balancedPhase fs]

theorem exportSeq_balancedPhase : ∀ (fs : List FileRec),
    exportSeq (balancedPhase fs) = (fs.filter (fun f => f.importFlag)).map FileRec.fid
  | [] => rfl
  | f :: fs => by
    by_cases hi : f.importFlag = true <;> by_cases he : f.exportFlag = true <;>
      simp [balancedPhase, impEvent, expEvent, hi, he, exportSeq, List.filter_cons,
        exportSeq_balancedPhase fs]

theorem exportSeq_run {files : List FileRec} {n : Nat} (h : n ≤ files.length) :
    exportSeq (startConversionProcess files (some n))
      = (files.filter (fun f => f.importFlag)).map FileRec.fid := by
  rw [startConversionProcess, if_pos h]
  rw [exportSeq_append, exportSeq_append]
  rw [bulkPhase_events, bulkPhase_queue, bulkPhase_rem]
  rw [exportSeq_map_impEvent, exportSeq_drainPhase, exportSeq_balancedPhase]
  rw [List.nil_append, ← List.map_append, ← List.filter_append, List.take_append_drop]

theorem importSeq_run {files : List FileRec} {n : Nat} (h : n ≤ files.length) :
    importSeq (startConversionProcess files (some n)) = files.map FileRec.fid := by
  rw [startConversionProcess, if_pos h]
  rw [importSeq_append, importSeq_append]
  rw [bulkPhase_events, bulkPhase_queue, bulkPhase_rem]
  rw [importSeq_map_impEvent, importSeq_drainPhase, importSeq_balancedPhase]
  rw [List.append_nil, ← List.map_append, List.take_append_drop]

theorem import_count_one {files : List FileRec} {n : Nat}
    (hnod : (files.map FileRec.fid).Nodup) (hn : n ≤ files.length)
    {f : FileRec} (hf : f ∈ files) :
    countImports f.fid (startConversionProcess files (some n)) = 1 := by
  rw [countImports, importSeq_run hn]
  exact List.count_eq_one_of_mem hnod (List.mem_map_of_mem _ hf)

theorem export_count_one {files : List FileRec} {n : Nat}
    (hnod : (files.map FileRec.fid).Nodup) (hn : n ≤ files.length)
    {f : FileRec} (hf : f ∈ files) (himp : f.importFlag = true) :
    countExports f.fid (startConversionProcess files (some n)) = 1 := by
  rw [countExports, exportSeq_run hn]
  have hsub : ((files.filter (fun g => g.importFlag)).map FileRec.fid).Sublist
      (files.map FileRec.fid) := (List.filter_sublist files).map _
  exact List.count_eq_one_of_mem (hnod.sublist hsub)
    (List.mem_map_of_mem _ (List.mem_filter.mpr ⟨hf, himp⟩))

theorem export_count_zero {files : List FileRec} {n : Nat}
    (hnod : (files.map FileRec.fid).Nodup) (hn : n ≤ files.length)
    {f : FileRec} (hf : f ∈ files) (hbad : f.importFlag = false) :
    countExports f.fid (startConversionProcess files (some n)) = 0 := by
  rw [countExports, exportSeq_run hn]
  rw [List.count_eq_zero]
  intro hmem
  rw [List.mem_map] at hmem
  obtain ⟨g, hg, hfid⟩ := hmem
  rw [List.mem_filter] at hg
  have hgf : g = f := List.inj_on_of_nodup_map hnod hg.1 hf hfid
  rw [hgf] at hg
  rw [hg.2] at hbad
  simp at hbad

/-! ### Suffix admission lemmas -/

theorem rfindDot_spec : ∀ {l : List Nat} {i : Nat}, rfindDot l = some i →
    ∃ t, l.drop i = 46 :: t := by
  intro l
  induction l with
  | nil => intro i h; simp [rfindDot] at h
  | cons c rest ih =>
    intro i h
    rw [rfindDot] at h
    cases hr : rfindDot rest with
    | some j =>
      rw [hr] at h
      simp at h
      subst h
      simpa using ih hr
    | none =>
      rw [hr] at h
      by_cases hc : c = 46
      · rw [if_pos hc] at h
        simp at h
        subst h
        exact ⟨rest, by simp [hc]⟩
      · rw [if_neg hc] at h
        simp at h

theorem pySuffix_shape (name : List Nat) :
    pySuffix name = [] ∨ ∃ t, pySuffix name = 46 :: t := by
  cases h : rfindDot name with
  | none =>
    left
    unfold pySuffix
    rw [h]
  | some i =>
    have hred : pySuffix name
        = if 0 < i ∧ i < name.length - 1 then name.drop i else [] := by
      unfold pySuffix
      rw [h]
    by_cases hc : 0 < i ∧ i < name.length - 1
    · right
      obtain ⟨t, ht⟩ := rfindDot_spec h
      rw [hred, if_pos hc]
      exact ⟨t, ht⟩
    · left
      rw [hred, if_neg hc]

theorem allowed_iff_dotted {s : List Nat} (hs : s = [] ∨ ∃ t, s = 46 :: t) :
    s ∈ ALLOWED_FILE_EXTENSIONS ↔ s ∈ dottedAdmissible := by
  rcases hs with rfl | ⟨t, rfl⟩
  · constructor
    · intro h
      exact absurd h (by decide)
    · intro h
      exact absurd h (by decide)
  · have h1 : pystr "tsv" = [116, 115, 118] := by decide
    have h2 : pystr "txt" = [116, 120, 116] := by decide
    simp only [ALLOWED_FILE_EXTENSIONS, dottedAdmissible, h1, h2, List.mem_cons,
      List.not_mem_nil, or_false]
    constructor
    · rintro (h | h | h | h | h | h) <;> simp_all
    · rintro (h | h | h | h) <;> simp_all

/-! ### Claim theorems -/

/-- C1 counterexample: the claim as stated covers the case where the output
format is never resolved; there, the code imports the file (one import
attempt) but the run ends with zero export attempts — the successfully
ingested file is left unexported, contradicting "exported exactly once ...
including when the output format is resolved late or never". -/
theorem C1_counterexample :
    countImports 0 (startConversionProcess [⟨0, true, true⟩] none) = 1
    ∧ countExports 0 (startConversionProcess [⟨0, true, true⟩] none) = 0 := by
  decide

/-- C1 amended: provided the output format becomes set after `n` import
attempts for some `n` not exceeding the inventory length (i.e. it resolves
while imports are still being attempted, or exactly as the last one
finishes), every file whose import succeeds receives exactly one import
attempt and exactly one export attempt — its queued handle is consumed
exactly once — across the bulk-import, draining and balanced phases. -/
theorem C1_exactly_once (files : List FileRec) (n : Nat)
    (hnod : (files.map FileRec.fid).Nodup) (hn : n ≤ files.length) :
    ∀ f ∈ files, f.importFlag = true →
      countImports f.fid (startConversionProcess files (some n)) = 1
      ∧ countExports f.fid (startConversionProcess files (some n)) = 1 := by
  intro f hf himp
  exact ⟨import_count_one hnod hn hf, export_count_one hnod hn hf himp⟩

/-- C1 witness: a three-file inventory with one export failure and one import
failure, format resolved after two imports; the first file is imported once
and exported once. -/
theorem C1_exactly_once_witness :
    countImports 1 (startConversionProcess
        [⟨0, true, true⟩, ⟨1, true, false⟩, ⟨2, false, true⟩] (some 2)) = 1
    ∧ countExports 1 (startConversionProcess
        [⟨0, true, true⟩, ⟨1, true, false⟩, ⟨2, false, true⟩] (some 2)) = 1 :=
  C1_exactly_once [⟨0, true, true⟩, ⟨1, true, false⟩, ⟨2, false, true⟩] 2
    (by decide) (by decide) ⟨1, true, false⟩ (by decide) rfl

/-- C2: for any inventory `[f1, f2, f3]` whose imports succeed and with the
output format resolved after f1's import completes, the export attempts occur
exactly in the order f1, f2, f3 — the pending queue is drained FIFO and the
remaining files stream in inventory order; f2 is never exported before f1. -/
theorem C2_export_order (f1 f2 f3 : FileRec) (h1 : f1.importFlag = true)
    (h2 : f2.importFlag = true) (h3 : f3.importFlag = true) :
    exportSeq (startConversionProcess [f1, f2, f3] (some 1))
      = [f1.fid, f2.fid, f3.fid] := by
  rw [exportSeq_run (by simp)]
  simp [List.filter_cons, h1, h2, h3]

/-- C2 witness at a concrete inventory (middle export fails, order still
f1, f2, f3). -/
theorem C2_export_order_witness :
    exportSeq (startConversionProcess
        [⟨10, true, true⟩, ⟨11, true, false⟩, ⟨12, true, true⟩] (some 1))
      = [10, 11, 12] :=
  C2_export_order ⟨10, true, true⟩ ⟨11, true, false⟩ ⟨12, true, true⟩ rfl rfl rfl

/-- C3: evaluation of `_detect_majority_extension` at the failing input — a
directory scanned in the order [x.csv, y.json, z.json]. The code selects
".csv" (the first-seen extension: the `_sort_extensions_by_count` call on
line 168 of src/Make_It_Parquet/file_manager.py sits inside a comment), while
the unique strict majority — which the spec-modelled detector returns — is
".json". -/
theorem C3_first_seen_not_majority :
    detect_majority_extension
        (extensionCounts [pystr ".csv", pystr ".json", pystr ".json"])
      = some (pystr ".csv")
    ∧ specMajority (extensionCounts [pystr ".csv", pystr ".json", pystr ".json"])
      = some (pystr ".json")
    ∧ pystr ".csv" ≠ pystr ".json" := by
  decide

/-- C4: the four concrete Alias Renamer equations hold of the repository's
composite renamer (containment guard plus case-preserving substitution, with
the underscore fallback of `_generate_output_name`). -/
theorem C4_case_preservation :
    generate_output_name (pystr "DATA_CSV_EXPORT") (pystr "csv") (pystr "json")
        = pystr "DATA_JSON_EXPORT"
    ∧ generate_output_name (pystr "data_csv") (pystr "csv") (pystr "json")
        = pystr "data_json"
    ∧ generate_output_name (pystr "Data_Csv") (pystr "csv") (pystr "json")
        = pystr "Data_Json"
    ∧ generate_output_name (pystr "report") (pystr "csv") (pystr "json")
        = pystr "report_json" := by
  decide

/-- C5 counterexample: text "a_cSv", A = "csv", B = "json" satisfies every
hypothesis of the claim (A occurs case-insensitively, A differs from B,
neither is a substring of the other), yet the round trip returns "a_csv",
not the original "a_cSv" — the mixed-case occurrence is replaced by the new
alias verbatim and its casing is lost. -/
theorem C5_counterexample :
    substr (strLower (pystr "csv")) (strLower (pystr "a_cSv")) = true
    ∧ pystr "csv" ≠ pystr "json"
    ∧ generate_output_name
        (generate_output_name (pystr "a_cSv") (pystr "csv") (pystr "json"))
        (pystr "json") (pystr "csv") = pystr "a_csv"
    ∧ pystr "a_csv" ≠ pystr "a_cSv" := by
  decide

/-- C5 amended: the round trip `rename (rename text A B) B A = text` holds for
distinct aliases A and B (non-trivial all-lower-case words) whenever A occurs
in text, every occurrence of A is fully-upper, fully-lower or capitalized
(not mixed case), and no accidental matches of B arise (no pre-existing
occurrence of B and no match straddling a replacement boundary — `revOK`). -/
theorem C5_roundtrip (A B text : List Nat) (hA : isAlias A = true)
    (hB : isAlias B = true) (_hAB : A ≠ B)
    (hocc : substr (strLower A) (strLower text) = true)
    (hok : revOK A B text = true) :
    generate_output_name (generate_output_name text A B) B A = text := by
  have hAne := isAlias_ne_nil hA
  have hBne := isAlias_ne_nil hB
  have hc1 : 1 ≤ (pySubn A B text).2 :=
    count_pos_of_substr A B hAne text.length text (le_refl _) hocc
  obtain ⟨hEq, hCnt, hSub⟩ :=
    subn_roundtrip_core hA hB text.length text (le_refl _) hok
  have hrw1 : replace_alias_in_string text A B = (pySubn A B text).1 := by
    rw [replace_alias_in_string]
    exact if_neg (by omega)
  have hinner : generate_output_name text A B = (pySubn A B text).1 := by
    rw [generate_output_name, if_pos ⟨hAne, hocc⟩, hrw1]
  have hc2 : 1 ≤ (pySubn B A (pySubn A B text).1).2 := hCnt hc1
  have hrw2 : replace_alias_in_string (pySubn A B text).1 B A
      = (pySubn B A (pySubn A B text).1).1 := by
    rw [replace_alias_in_string]
    exact if_neg (by omega)
  rw [hinner, generate_output_name, if_pos ⟨hBne, hSub hc1⟩, hrw2, hEq]

/-- C5 witness: a capitalized occurrence round-trips: "Data_Csv_Report" →
"Data_Json_Report" → "Data_Csv_Report". -/
theorem C5_roundtrip_witness :
    generate_output_name
        (generate_output_name (pystr "Data_Csv_Report") (pystr "csv") (pystr "json"))
        (pystr "json") (pystr "csv") = pystr "Data_Csv_Report" :=
  C5_roundtrip (pystr "csv") (pystr "json") (pystr "Data_Csv_Report")
    (by decide) (by decide) (by decide) (by decide) (by decide)

/-- C6 counterexample: renaming with old alias equal to new alias is NOT the
identity in two of the cases the claim covers: a mixed-case occurrence
("a_cSv" becomes "a_csv" — the verbatim fallback substitutes the lower-case
alias), and an absent alias ("report" becomes "report_csv" — the fallback
appends rather than returning the text unchanged). -/
theorem C6_counterexample :
    generate_output_name (pystr "a_cSv") (pystr "csv") (pystr "csv")
        = pystr "a_csv"
    ∧ pystr "a_csv" ≠ pystr "a_cSv"
    ∧ generate_output_name (pystr "report") (pystr "csv") (pystr "csv")
        = pystr "report_csv"
    ∧ pystr "report_csv" ≠ pystr "report" := by
  decide

/-- C6 amended: renaming with old alias equal to new alias is the identity
whenever the alias occurs in the text and every occurrence is fully-upper,
fully-lower or capitalized (determinism is immediate: the renamer is a pure
function). With a mixed-case occurrence the occurrence is rewritten to the
alias verbatim, and with no occurrence the alias is appended after an
underscore. -/
theorem C6_identity (A text : List Nat) (hA : isAlias A = true)
    (hocc : substr (strLower A) (strLower text) = true)
    (hok : matchesOK A text = true) :
    generate_output_name text A A = text := by
  have hAne := isAlias_ne_nil hA
  have hc1 : 1 ≤ (pySubn A A text).2 :=
    count_pos_of_substr A A hAne text.length text (le_refl _) hocc
  rw [generate_output_name, if_pos ⟨hAne, hocc⟩]
  have hrw1 : replace_alias_in_string text A A = (pySubn A A text).1 := by
    rw [replace_alias_in_string]
    exact if_neg (by omega)
  rw [hrw1]
  exact subn_id_core hA text.length text (le_refl _) hok

/-- C6 witness: an upper-case and a lower-case occurrence are both fixed
points: "Data_CSV_csv" is unchanged by renaming "csv" to "csv". -/
theorem C6_identity_witness :
    generate_output_name (pystr "Data_CSV_csv") (pystr "csv") (pystr "csv")
      = pystr "Data_CSV_csv" :=
  C6_identity (pystr "csv") (pystr "Data_CSV_csv") (by decide) (by decide) (by decide)

/-- C7: evaluation of the scheduler at the failing input — a one-file
inventory with the output format never supplied. The full trace is one
single import attempt only: the bulk-import loop exits through
`if self.import_queue.empty(): break` and the run terminates silently — no
bounded wait, no timeout, no fatal error (the trace contains no
`Event.fatalAbort`) and no export or cleanup of the imported staging data. -/
theorem C7_silent_termination :
    startConversionProcess [⟨0, true, true⟩] none = [Event.importDone 0]
    ∧ Event.fatalAbort ∉ startConversionProcess [⟨0, true, true⟩] none := by
  decide

/-- C8: evaluation of the exit path at the failing input — a run that
completes. `main` ends with `exit_program("Conversion complete.")`, and
`exit_program` calls `exit(1)` on every branch, so the completed run exits
with code 1, not 0. -/
theorem C8_exit_code_one :
    completed_run_exit_code = 1 ∧ completed_run_exit_code ≠ 0 := by
  decide

/-- C9: failure semantics of the scheduler, for an inventory of distinct
files with the output format resolved after `n ≤ length` imports: (1) every
file receives exactly one import attempt, in inventory order — a failing
call never aborts the batch; (2) a file whose import fails is
skipped: its pending-queue slot is never created and it receives no export
attempt; (3) every file whose import succeeds still receives exactly one
export attempt, regardless of any other file's failures. -/
theorem C9_failure_semantics (files : List FileRec) (n : Nat)
    (hnod : (files.map FileRec.fid).Nodup) (hn : n ≤ files.length) :
    importSeq (startConversionProcess files (some n)) = files.map FileRec.fid
    ∧ (∀ f ∈ files, f.importFlag = false →
        countExports f.fid (startConversionProcess files (some n)) = 0)
    ∧ (∀ f ∈ files, f.importFlag = true →
        countExports f.fid (startConversionProcess files (some n)) = 1) := by
  refine ⟨importSeq_run hn, ?_, ?_⟩
  · intro f hf hbad
    exact export_count_zero hnod hn hf hbad
  · intro f hf himp
    exact export_count_one hnod hn hf himp

/-- C9 witness: a middle import failure and a leading export failure; all
three files are still attempted in order, the failed import gets no export,
the first file is still exported once. -/
theorem C9_failure_semantics_witness :
    importSeq (startConversionProcess
        [⟨0, true, false⟩, ⟨1, false, true⟩, ⟨2, true, true⟩] (some 1)) = [0, 1, 2]
    ∧ countExports 1 (startConversionProcess
        [⟨0, true, false⟩, ⟨1, false, true⟩, ⟨2, true, true⟩] (some 1)) = 0
    ∧ countExports 0 (startConversionProcess
        [⟨0, true, false⟩, ⟨1, false, true⟩, ⟨2, true, true⟩] (some 1)) = 1 :=
  ⟨(C9_failure_semantics [⟨0, true, false⟩, ⟨1, false, true⟩, ⟨2, true, true⟩] 1
      (by decide) (by decide)).1,
   (C9_failure_semantics [⟨0, true, false⟩, ⟨1, false, true⟩, ⟨2, true, true⟩] 1
      (by decide) (by decide)).2.1 ⟨1, false, true⟩ (by decide) rfl,
   (C9_failure_semantics [⟨0, true, false⟩, ⟨1, false, true⟩, ⟨2, true, true⟩] 1
      (by decide) (by decide)).2.2 ⟨0, true, false⟩ (by decide) rfl⟩

/-- C10: which suffixes the directory classifier admits. For every file name,
the suffix computed by `file_extension` (pathlib `.suffix`: dotted,
case-preserving) passes the `ALLOWED_FILE_EXTENSIONS` membership test of
`_group_files_by_extension` exactly when it is one of ".csv", ".json",
".parquet", ".xlsx"; in particular ".tsv", ".txt" (the set stores them
undotted) and any suffix containing an upper-case letter (e.g. ".CSV") are
never admitted into the extension groups, the tally or the conversion file
list, even though the undotted "tsv" is a member of the stored set. -/
theorem C10_admitted_suffixes :
    (∀ name : List Nat,
      pySuffix name ∈ ALLOWED_FILE_EXTENSIONS ↔ pySuffix name ∈ dottedAdmissible)
    ∧ isAllowedExt (pystr ".tsv") = false
    ∧ isAllowedExt (pystr ".txt") = false
    ∧ isAllowedExt (pystr ".CSV") = false
    ∧ isAllowedExt (pystr "tsv") = true := by
  refine ⟨?_, by decide, by decide, by decide, by decide⟩
  intro name
  exact allowed_iff_dotted (pySuffix_shape name)
